import Mathlib

/-!
Verification development for the `cell_tracker` class of
`deepcell/tracking.py`: frame-by-frame multi-object tracking of segmented
cells with division detection.  Pure fragments of the Python code are
embedded as Lean functions; per-frame stateful passes become explicit
state-passing functions over a `Track` record type.  Machine floats are
idealised as `ℚ` (or `ℝ` where a square root is involved); the external
classifier ("Oracle") and the feature extractor are abstracted as
function parameters, and the assignment solver output is abstracted as a
permutation, following its documented contract.
-/

/-! ## Label-plane cleanup (`_clean_up_annotations`, tracking.py 66-80)

For each frame the source takes `np.unique` of the label plane (sorted
unique values) and rewrites every pixel holding the `k`-th unique value
to `k`.  Pixels are labels, i.e. natural numbers, a frame is the
flattened list of its pixels.  -/

/-- Sorted list of the distinct values of a frame, as produced by
`np.unique` (tracking.py line 75). -/
def unique_sorted (xs : List Nat) : List Nat :=
  xs.dedup.insertionSort (· ≤ ·)

/-- New value of a pixel holding `v`: the position of `v` in the sorted
unique list — the source writes `new_label` wherever the frame equals
`old_label` while enumerating the unique values (lines 77-78). -/
def clean_value (xs : List Nat) (v : Nat) : Nat :=
  (unique_sorted xs).indexOf v

/-- Whole-frame relabelling (body of the per-frame loop, lines 75-79). -/
def clean_up_frame (xs : List Nat) : List Nat :=
  xs.map (clean_value xs)

/-- Per-frame independent cleanup of the whole volume (loop at line 74). -/
def clean_up_volume (frames : List (List Nat)) : List (List Nat) :=
  frames.map clean_up_frame

/-! ## Track history windows (`_fetch_track_appearances`,
`_fetch_track_perimeters`, `_fetch_track_centroids`,
`_fetch_track_occupancy_grids`, tracking.py 447-541)

All four fetchers share the same windowing logic on the per-track
history array; only the element shape differs, so we embed it once,
generically in the element type.  If the recorded history has more than
`W - 1` entries the source takes the last `W` entries (`app[-W:]`,
chronological).  Otherwise it builds the index list
`[-1, -2, ..., -L] + [-L] * (W - L)` and gathers, i.e. the recorded
values newest-first followed by copies of the oldest value.  The source
raises on an empty history (indexing an empty axis); theorems therefore
assume a nonempty history. -/

/-- Length-`W` history window of one track, shared body of the four
`_fetch_track_*` functions. -/
def fetch_track_window {α : Type} [Inhabited α] (W : Nat) (hist : List α) : List α :=
  if (hist.length : Int) > (W : Int) - 1 then
    hist.drop (hist.length - W)
  else
    hist.reverse ++ List.replicate (W - hist.length) hist.headI

/-- Modelled from the spec: the window order claimed by the spec —
padded copies of the oldest value in the leading slots, then the
recorded values in chronological order.  Stated only to be compared
with `fetch_track_window`, which is the embedding of the source. -/
def spec_fetch_window {α : Type} [Inhabited α] (W : Nat) (hist : List α) : List α :=
  List.replicate (W - hist.length) hist.headI ++ hist

/-! ## Constructor validation and feature-name dispatch
(`cell_tracker.__init__` line 35-36, `_fetch_track_feature` 435-445)

The constructor rejects only `features is None`; any supplied list
(even the empty one) is accepted and stored sorted.  Unknown feature
names are only rejected by `_fetch_track_feature`, which runs during
frame processing, not during construction. -/

/-- The four dispatch targets of `_fetch_track_feature`. -/
inductive FetchKind : Type where
  | appearance : FetchKind
  | distance : FetchKind
  | perimeter : FetchKind
  | neighborhood : FetchKind
deriving DecidableEq, Repr

/-- Feature-list validation performed by `__init__` (lines 35-36 and 52):
`None` raises `ValueError`, any actual list is accepted and sorted. -/
def initFeaturesCheck (features : Option (List String)) : Except String (List String) :=
  match features with
  | none => Except.error "cell_tracking: No features specified."
  | some fs => Except.ok (fs.insertionSort (· ≤ ·))

/-- Name dispatch of `_fetch_track_feature` (lines 435-445): the four
recognized names dispatch, anything else raises `ValueError`. -/
def fetch_track_feature_kind (feature : String) : Except String FetchKind :=
  if feature = "appearance" then Except.ok FetchKind.appearance
  else if feature = "distance" then Except.ok FetchKind.distance
  else if feature = "perimeter" then Except.ok FetchKind.perimeter
  else if feature = "neighborhood" then Except.ok FetchKind.neighborhood
  else Except.error ("_fetch_track_feature: Unknown feature " ++ feature)

/-! ## Cost matrix assembly (`_get_cost_matrix`, tracking.py 153-253)

With `N` open tracks and `M` candidate cells the source builds an
`(N+M) × (N+M)` matrix from four blocks.  The Oracle's batched output is
abstracted as `pred : Nat → Nat → ℚ × ℚ × ℚ`, the probability triple for
each (track, cell) pair — under the spec's declared ordering the
components are (continue, unrelated, division).  Matrices are embedded
as functions of two indices; floats are idealised as `ℚ`. -/

/-- Identity-matrix entry, `np.eye` at position `(i, j)`. -/
def eye (i j : Nat) : ℚ := if i = j then 1 else 0

/-- Top-left `N × M` block after the capped-row pass: the source sets
`assignment_matrix = 1 - predictions[:, :, 1]` (line 229) and then
forces every column of a capped track's row to `1` (lines 231-234). -/
def assignment_matrix (capped : Nat → Bool) (pred : Nat → Nat → ℚ × ℚ × ℚ)
    (i j : Nat) : ℚ :=
  if capped i = true then 1 else 1 - (pred i j).2.1

/-- Modelled from the spec: top-left block as the spec's words have it,
`1 − P(continue)` with `P(continue)` the FIRST component of the triple.
Stated only to be compared with `assignment_matrix`, the embedding of
the source. -/
def assignment_matrix_spec (pred : Nat → Nat → ℚ × ℚ × ℚ) (i j : Nat) : ℚ :=
  1 - (pred i j).1

/-- Bottom-left `M × M` birth block,
`np.diag([birth] * M) + np.ones(...) - np.eye(M)` (lines 238-239). -/
def birth_matrix (birth : ℚ) (i j : Nat) : ℚ :=
  (if i = j then birth else 0) + 1 - eye i j

/-- Top-right `N × N` death block,
`death * np.eye(N) + np.ones(...) - np.eye(N)` (line 242). -/
def death_matrix (death : ℚ) (i j : Nat) : ℚ :=
  death * eye i j + 1 - eye i j

/-- Bottom-right `M × N` block, `assignment_matrix.T` (line 245),
transposed after the capped-row pass. -/
def mordor_matrix (capped : Nat → Bool) (pred : Nat → Nat → ℚ × ℚ × ℚ)
    (i j : Nat) : ℚ :=
  assignment_matrix capped pred j i

/-- Assembled `(N+M) × (N+M)` cost matrix (lines 248-251): rows `< N`
are track rows, rows `≥ N` are cell rows; columns `< M` are cell
columns, columns `≥ M` are death columns. -/
def get_cost_matrix (N M : Nat) (death birth : ℚ) (capped : Nat → Bool)
    (pred : Nat → Nat → ℚ × ℚ × ℚ) (i j : Nat) : ℚ :=
  if i < N then
    if j < M then assignment_matrix capped pred i j
    else death_matrix death i (j - M)
  else
    if j < M then birth_matrix birth (i - N) j
    else mordor_matrix capped pred (i - N) (j - M)

/-! ## Solver output and its interpretation (`_run_lap` 255-262,
`_update_tracks` branch conditions 280, 291, 307)

`scipy.optimize.linear_sum_assignment` on a square `(N+M) × (N+M)`
matrix returns a minimum-cost bijection; we abstract its output as a
permutation `σ` of `Fin (N+M)` (spec §4.4: "Output: a bijection of
(row, column) pairs").  The three branch conditions of the lifecycle
manager are embedded verbatim, with Python's `int` comparisons over
`Int` (so `track > number_of_tracks - 1` is meaningful at `N = 0`). -/

/-- Condition of the continuation branch,
`track < number_of_tracks and cell < number_of_cells` (line 280). -/
def isContinuation (N M track cell : Nat) : Bool :=
  decide (track < N) && decide (cell < M)

/-- Condition of the birth branch,
`track > number_of_tracks - 1 and cell < number_of_cells` (line 291). -/
def isBirth (N M track cell : Nat) : Bool :=
  decide ((track : Int) > (N : Int) - 1) && decide (cell < M)

/-- Condition of the death branch,
`track < number_of_tracks and cell > number_of_cells - 1` (line 307). -/
def isDeath (N M track cell : Nat) : Bool :=
  decide (track < N) && decide ((cell : Int) > (M : Int) - 1)

/-- A padded pair matching none of the three branches: both indices are
sinks. -/
def isSinkPair (N M track cell : Nat) : Bool :=
  decide ((track : Int) > (N : Int) - 1) && decide ((cell : Int) > (M : Int) - 1)

/-- Assignment list produced by `_run_lap` (lines 259-262): the row
indices `0..N+M-1` paired with the solver's matched column. -/
def run_lap (n : Nat) (σ : Equiv.Perm (Fin n)) : List (Nat × Nat) :=
  (List.finRange n).map (fun i => (i.1, (σ i).1))

/-- Number of assignments the lifecycle manager treats as continuations. -/
def contCount (N M : Nat) (σ : Equiv.Perm (Fin (N + M))) : Nat :=
  (Finset.univ.filter (fun i : Fin (N + M) =>
    isContinuation N M i.1 (σ i).1 = true)).card

/-- Number of assignments the lifecycle manager treats as births. -/
def birthCount (N M : Nat) (σ : Equiv.Perm (Fin (N + M))) : Nat :=
  (Finset.univ.filter (fun i : Fin (N + M) =>
    isBirth N M i.1 (σ i).1 = true)).card

/-- Number of assignments the lifecycle manager treats as deaths. -/
def deathCount (N M : Nat) (σ : Equiv.Perm (Fin (N + M))) : Nat :=
  (Finset.univ.filter (fun i : Fin (N + M) =>
    isDeath N M i.1 (σ i).1 = true)).card

/-! ## Track records and the per-frame lifecycle pass
(`_create_new_track` 82-103, `_update_tracks` 264-347)

The source keeps tracks in a dict keyed `0..n-1` (`_create_new_track`
always uses `max(keys) + 1`, so keys stay contiguous); we embed the
collection as a `List` indexed by track id.  All enabled per-feature
history arrays are appended to, truncated and re-homed in lockstep with
the `frames` list, so one aligned history list of abstract bundles `B`
(one bundle per recorded frame) represents them; `_get_features`, which
extracts a bundle from the image data, is abstracted as
`extract : frame → cell id → B`, and the `_get_parent` call made on a
birth is abstracted as a function of the current track list, frame and
cell id (its score-level body is embedded separately as `get_parent`
below). -/

/-- One track record: display label, frames it appears in, the aligned
per-frame feature history, daughter ids, capped flag and optional
parent id (`_create_new_track`, lines 90-103). -/
structure Track (B : Type) where
  label : Nat
  frames : List Nat
  hist : List B
  daughters : List Nat
  capped : Bool
  parent : Option Nat
deriving DecidableEq, Repr, Inhabited

/-- Replace track `i` by `f` applied to it; out-of-range ids leave the
list unchanged (a dict access in the source is always in range). -/
def modifyTrack {B : Type} (tracks : List (Track B)) (i : Nat)
    (f : Track B → Track B) : List (Track B) :=
  match tracks[i]? with
  | none => tracks
  | some t => tracks.set i (f t)

/-- Fresh track as built by `_create_new_track frame cell_id` (lines
82-103): label `cell_id`, a single recorded frame, one extracted
bundle, no daughters, not capped, no parent. -/
def create_new_track {B : Type} (extract : Nat → Nat → B) (frame cellId : Nat) :
    Track B :=
  { label := cellId, frames := [frame], hist := [extract frame cellId],
    daughters := [], capped := false, parent := none }

/-- Processing of one assignment pair inside the loop of
`_update_tracks` (lines 274-309).  The continuation branch (280-287)
appends the frame and the extracted bundle to the matched track; the
birth branch (291-304) appends a fresh track and links the parent
returned by `_get_parent`, if any; the death branch (307-309) is a bare
`continue` in the source — no state change, hence no code here. -/
def processAssignment {B : Type} (extract : Nat → Nat → B)
    (parentOf : List (Track B) → Nat → Nat → Option Nat)
    (N M frame : Nat) (tracks : List (Track B)) (a : Nat × Nat) :
    List (Track B) :=
  let track := a.1
  let cell := a.2
  let ts1 :=
    if track < N ∧ cell < M then
      modifyTrack tracks track (fun t =>
        { t with frames := t.frames ++ [frame],
                 hist := t.hist ++ [extract frame (cell + 1)] })
    else tracks
  if (track : Int) > (N : Int) - 1 ∧ cell < M then
    let ts := ts1 ++ [create_new_track extract frame (cell + 1)]
    let newId := ts.length - 1
    match parentOf ts frame (cell + 1) with
    | some p =>
        modifyTrack
          (modifyTrack ts newId (fun t => { t with parent := some p }))
          p (fun t => { t with daughters := t.daughters ++ [newId] })
    | none => ts
  else ts1

/-- Capping pass of `_update_tracks` (lines 311-315): every track that
has gained a daughter is marked capped. -/
def capAll {B : Type} (tracks : List (Track B)) : List (Track B) :=
  tracks.map (fun t =>
    if t.daughters.length > 0 then { t with capped := true } else t)

/-- The offending track after repair (lines 337-341): the current
frame removed from its frames list (`list.remove`, first occurrence),
the last entry of every feature history dropped (`[0:-1]`), and the
fresh track's id `newId` appended to its daughters. -/
def repairedTrack {B : Type} (frame newId : Nat) (t : Track B) : Track B :=
  { t with frames := t.frames.erase frame,
           hist := t.hist.dropLast,
           daughters := t.daughters ++ [newId] }

/-- The fresh track spawned by the repair (lines 328-335): same label,
only the current frame, history re-homed from the last entry
(`[[-1]]`) of track `i`, no daughters, not capped, parent `i`. -/
def freshTrack {B : Type} (frame i : Nat) (t : Track B) : Track B :=
  { label := t.label, frames := [frame],
    hist := t.hist.drop (t.hist.length - 1),
    daughters := [], capped := false, parent := some i }

/-- Repair step for one track id `i` (lines 318-344): if track `i` has
a daughter and also holds the current frame, a fresh track carrying
only that frame is appended (its history re-homed from the last entry
of track `i`), the frame and the last history entry are removed from
track `i`, and the fresh track becomes an additional daughter of `i`.
`new_track_id = max(keys) + 1` is the current length of the list. -/
def repairOne {B : Type} (frame : Nat) (tracks : List (Track B)) (i : Nat) :
    List (Track B) :=
  match tracks[i]? with
  | none => tracks
  | some t =>
    if t.daughters.length > 0 ∧ frame ∈ t.frames then
      (tracks.set i (repairedTrack frame tracks.length t)) ++
        [freshTrack frame i t]
    else tracks

/-- Per-frame repair pass (lines 311-344): cap, then check each of the
`number_of_tracks` ids present when the pass starts. -/
def repairPass {B : Type} (frame : Nat) (tracks : List (Track B)) :
    List (Track B) :=
  let ts := capAll tracks
  (List.range ts.length).foldl (repairOne frame) ts

/-- Whole of `_update_tracks` on the track collection: the assignment
loop followed by the capping-and-repair pass (the tracked label volume
is derived output and not part of the track state). -/
def update_tracks {B : Type} (extract : Nat → Nat → B)
    (parentOf : List (Track B) → Nat → Nat → Option Nat)
    (N M frame : Nat) (assignments : List (Nat × Nat))
    (tracks : List (Track B)) : List (Track B) :=
  repairPass frame
    (assignments.foldl (processAssignment extract parentOf N M frame) tracks)

/-- Concrete one-track state used to evaluate the repair pass: capped
with one daughter and holding frames `0` and `1`. -/
def repair_demo_track : Track Nat :=
  { label := 1, frames := [0, 1], hist := [10, 11], daughters := [7],
    capped := true, parent := none }

/-! ## Parent search (`_get_parent`, tracking.py 349-433)

The Oracle's division scores against the existing tracks arrive as
`probs = predictions[:, 2]`, one `ℚ` per track.  The source zeroes the
entries of capped tracks (lines 420-423), takes `np.amax`, takes the
first index attaining it (`np.where(probs == max_prob)[0][0]`), and
links it as parent iff the maximum strictly exceeds the division
threshold (lines 426-433).  `np.amax` raises on an empty array, so
theorems assume at least one track. -/

/-- Capped-track zeroing loop (lines 420-423), indexed over
`range(number_of_tracks)` with `number_of_tracks = len(self.tracks)`. -/
def zero_capped (capped : List Bool) (probs : List ℚ) : List ℚ :=
  (List.range capped.length).map (fun t =>
    if capped.getD t false = true then 0 else probs.getD t 0)

/-- `np.amax` over a list (junk value on the empty list, where the
source raises). -/
def amax (l : List ℚ) : ℚ := l.foldl max l.headI

/-- Decision part of `_get_parent` (lines 419-433): zero capped tracks,
take the first index attaining the maximum, link iff the maximum
strictly exceeds the division threshold. -/
def get_parent (division : ℚ) (capped : List Bool) (probs : List ℚ) :
    Option Nat :=
  let probs2 := zero_capped capped probs
  let maxProb := amax probs2
  if maxProb > division then some (probs2.indexOf maxProb) else none

/-- Modelled from the spec: a track is a parent candidate iff it is
not capped — capped tracks are excluded from winning outright. -/
def is_candidate (capped : List Bool) (t : Nat) : Bool :=
  !(capped.getD t true)

/-- Modelled from the spec: a candidate whose division score is maximal
among all candidates. -/
def is_best (capped : List Bool) (probs : List ℚ) (t : Nat) : Bool :=
  is_candidate capped t &&
    (List.range capped.length).all (fun s =>
      !(is_candidate capped s) || decide (probs.getD s 0 ≤ probs.getD t 0))

/-- Modelled from the spec: parentage as the spec's words have it — the
candidate parent is the first (lowest-id) non-capped track of maximal
division score among non-capped tracks, linked iff its score strictly
exceeds the threshold.  Stated only to be compared with `get_parent`,
the embedding of the source. -/
def spec_get_parent (division : ℚ) (capped : List Bool) (probs : List ℚ) :
    Option Nat :=
  match (List.range capped.length).find? (is_best capped probs) with
  | none => none
  | some b => if probs.getD b 0 > division then some b else none

/-! ## Distance-feature preprocessing (`_compute_feature`, "distance"
branch, tracking.py 131-143)

The branch concatenates the track centroids with the candidate
centroid, takes consecutive differences (`np.diff`), prepends a zero
row, and clamps each displacement row: if `np.linalg.norm(dist)` (the
Euclidean magnitude) exceeds `max_distance`, the row is replaced by
`dist / norm * max_distance`.  Magnitudes involve a square root, so
this fragment is idealised over `ℝ`. -/

open scoped Classical in
/-- Euclidean magnitude of a displacement row, `np.linalg.norm` on a
2-vector. -/
noncomputable def normVec (d : ℝ × ℝ) : ℝ :=
  Real.sqrt (d.1 ^ 2 + d.2 ^ 2)

open scoped Classical in
/-- Clamp of one displacement row (lines 139-142): rescale to magnitude
`maxD` when the magnitude exceeds `maxD`, otherwise leave unchanged. -/
noncomputable def clampVec (maxD : ℝ) (d : ℝ × ℝ) : ℝ × ℝ :=
  if normVec d > maxD then (d.1 / normVec d * maxD, d.2 / normVec d * maxD)
  else d

/-- Displacement rows of the "distance" branch (lines 132-143):
consecutive differences of track centroids plus candidate centroid,
zero row prepended, every row clamped.  (The source then returns the
split `distances[0:-1]` / `distances[-1]`.) -/
noncomputable def compute_distance_rows (maxD : ℝ)
    (trackCentroids : List (ℝ × ℝ)) (frameCentroid : ℝ × ℝ) :
    List (ℝ × ℝ) :=
  let centroids := trackCentroids ++ [frameCentroid]
  let diffs := centroids.zipWith
    (fun a b => (b.1 - a.1, b.2 - a.2)) centroids.tail
  let distances := ((0 : ℝ), (0 : ℝ)) :: diffs
  distances.map (clampVec maxD)

/-! ## Helper lemmas -/

theorem headI_mem_of_ne_nil {α : Type} [Inhabited α] {l : List α}
    (h : l ≠ []) : l.headI ∈ l := by
  cases l with
  | nil => exact absurd rfl h
  | cons a t => simp

/-! ### C9: constructor validation -/

/-- C9 counterexample: construction does NOT fail on every invalid
feature configuration — an empty feature list and an unrecognized
feature name are both accepted by `__init__` (only `features is None`
raises there). -/
theorem construction_claim_counterexample :
    initFeaturesCheck (some []) = Except.ok [] ∧
    initFeaturesCheck (some ["bogus"]) = Except.ok ["bogus"] := by
  constructor <;> rfl

/-- C9 (amended): construction fails iff no feature collection is
supplied (`features is None`); any actual list — the empty one or one
holding unrecognized names — passes construction, and an unrecognized
feature name is rejected only by `_fetch_track_feature`, which runs
during frame processing. -/
theorem construction_validation :
    (initFeaturesCheck none =
      Except.error "cell_tracking: No features specified.") ∧
    (∀ fs : List String, ∃ r, initFeaturesCheck (some fs) = Except.ok r) ∧
    (∀ f : String, f ≠ "appearance" → f ≠ "distance" → f ≠ "perimeter" →
      f ≠ "neighborhood" →
      fetch_track_feature_kind f =
        Except.error ("_fetch_track_feature: Unknown feature " ++ f)) := by
  refine ⟨rfl, fun fs => ⟨_, rfl⟩, fun f h1 h2 h3 h4 => ?_⟩
  simp [fetch_track_feature_kind, h1, h2, h3, h4]

/-- C9 witness: the amended theorem applied at the unrecognized name
`"bogus"`. -/
theorem construction_validation_witness :
    fetch_track_feature_kind "bogus" =
      Except.error ("_fetch_track_feature: Unknown feature " ++ "bogus") :=
  construction_validation.2.2 "bogus" (by decide) (by decide) (by decide)
    (by decide)

/-! ### C6: history-window padding -/

/-- C6 counterexample: the window order is NOT "padded oldest values
first, then the recorded values in chronological order": with two
recorded values and `W = 3` the source yields newest-first followed by
the repeated oldest value. -/
theorem fetch_window_order_counterexample :
    fetch_track_window 3 [(10 : Nat), 11] ≠
      spec_fetch_window 3 [(10 : Nat), 11] := by
  decide

/-- C6 (amended): when fewer than `W` frames are recorded, the fetched
window has length exactly `W`, consists of the recorded values
newest-first (reverse chronological order) followed by trailing copies
of the oldest recorded value, and never contains a value not recorded
(no zero padding); in particular a track with exactly one recorded
value and `W = 3` yields that value three times. -/
theorem fetch_window_short {α : Type} [Inhabited α] (W : Nat)
    (hist : List α) (h1 : hist ≠ []) (h2 : hist.length < W) :
    fetch_track_window W hist =
      hist.reverse ++ List.replicate (W - hist.length) hist.headI ∧
    (fetch_track_window W hist).length = W ∧
    ∀ x ∈ fetch_track_window W hist, x ∈ hist := by
  have hcond : ¬ ((hist.length : Int) > (W : Int) - 1) := by omega
  have heq : fetch_track_window W hist =
      hist.reverse ++ List.replicate (W - hist.length) hist.headI := by
    simp only [fetch_track_window, if_neg hcond]
  refine ⟨heq, ?_, ?_⟩
  · rw [heq]
    simp only [List.length_append, List.length_reverse, List.length_replicate]
    omega
  · intro x hx
    rw [heq] at hx
    rcases List.mem_append.mp hx with hx | hx
    · exact List.mem_reverse.mp hx
    · rw [List.eq_of_mem_replicate hx]
      exact headI_mem_of_ne_nil h1

/-- C6 witness: one recorded value, `W = 3`, yields the value three
times. -/
theorem fetch_window_short_witness :
    fetch_track_window 3 [(5 : Nat)] = [5, 5, 5] :=
  (fetch_window_short 3 [(5 : Nat)] (by decide) (by decide)).1.trans
    (by decide)

/-! ### C7: displacement clamping -/

/-- C7: for every displacement row of the distance-feature
preprocessing: a row whose magnitude exceeds `max_distance` is rescaled
to magnitude exactly `max_distance` with its direction preserved (a
positive scalar multiple), the norm divided by is nonzero there (no
division by zero), and a row whose magnitude is at most `max_distance`
— the zero row included — is left unchanged; consequently every row
produced by `compute_distance_rows` has magnitude at most
`max_distance`. -/
theorem clamp_spec (maxD : ℝ) (h : 0 < maxD) :
    (∀ d : ℝ × ℝ, normVec d > maxD →
      normVec d ≠ 0 ∧ normVec (clampVec maxD d) = maxD ∧
      ∃ c : ℝ, 0 < c ∧ clampVec maxD d = (c * d.1, c * d.2)) ∧
    (∀ d : ℝ × ℝ, normVec d ≤ maxD → clampVec maxD d = d) ∧
    (∀ tc fc, ∀ v ∈ compute_distance_rows maxD tc fc,
      normVec v ≤ maxD) := by
  have hscale : ∀ (c : ℝ) (d : ℝ × ℝ), 0 ≤ c →
      normVec (c * d.1, c * d.2) = c * normVec d := by
    intro c d hc
    have hsq : (c * d.1) ^ 2 + (c * d.2) ^ 2 = c ^ 2 * (d.1 ^ 2 + d.2 ^ 2) := by
      ring
    rw [normVec, normVec]
    simp only
    rw [hsq, Real.sqrt_mul (sq_nonneg c), Real.sqrt_sq hc]
  have hclamped : ∀ d : ℝ × ℝ, normVec d > maxD →
      normVec d ≠ 0 ∧ normVec (clampVec maxD d) = maxD ∧
      ∃ c : ℝ, 0 < c ∧ clampVec maxD d = (c * d.1, c * d.2) := by
    intro d hgt
    have hn : 0 < normVec d := lt_trans h hgt
    have hne : normVec d ≠ 0 := ne_of_gt hn
    have hc : 0 < maxD / normVec d := div_pos h hn
    have heq : clampVec maxD d =
        (maxD / normVec d * d.1, maxD / normVec d * d.2) := by
      rw [clampVec, if_pos hgt]
      simp only [Prod.mk.injEq]
      constructor <;> ring
    refine ⟨hne, ?_, maxD / normVec d, hc, heq⟩
    rw [heq, hscale _ d hc.le, div_mul_cancel₀ _ hne]
  have hkept : ∀ d : ℝ × ℝ, normVec d ≤ maxD → clampVec maxD d = d := by
    intro d hle
    rw [clampVec, if_neg (not_lt.mpr hle)]
  refine ⟨hclamped, hkept, ?_⟩
  intro tc fc v hvmem
  simp only [compute_distance_rows, List.mem_map] at hvmem
  obtain ⟨u, _, rfl⟩ := hvmem
  by_cases hu : normVec u > maxD
  · exact le_of_eq (hclamped u hu).2.1
  · rw [hkept u (not_lt.mp hu)]
    exact not_lt.mp hu

/-- C7 witness: the clamp at `max_distance = 1` rescales the
displacement `(3, 4)` (magnitude `5`) to magnitude exactly `1`. -/
theorem clamp_spec_witness : normVec (clampVec 1 ((3 : ℝ), 4)) = 1 := by
  have h34 : normVec ((3 : ℝ), 4) = 5 := by
    have h25 : (((3 : ℝ), (4 : ℝ)).1 ^ 2 + ((3 : ℝ), (4 : ℝ)).2 ^ 2)
        = (5 : ℝ) ^ 2 := by norm_num
    rw [normVec, h25, Real.sqrt_sq (by norm_num : (0 : ℝ) ≤ 5)]
  exact ((clamp_spec 1 (by norm_num)).1 ((3 : ℝ), 4)
    (by rw [h34]; norm_num)).2.1

/-! ### C4: the interpreted matching is a bijection -/

theorem card_filter_val_lt (n K : Nat) (h : K ≤ n) :
    ((Finset.univ : Finset (Fin n)).filter (fun i => i.1 < K)).card = K := by
  have hmem : ∀ b : Fin K, (⟨b.1, lt_of_lt_of_le b.2 h⟩ : Fin n) ∈
      (Finset.univ : Finset (Fin n)).filter (fun i => i.1 < K) := by
    intro b
    simp only [Finset.mem_filter, Finset.mem_univ, true_and]
    exact b.2
  have hcard : ((Finset.univ : Finset (Fin n)).filter (fun i => i.1 < K)).card
      = (Finset.univ : Finset (Fin K)).card :=
    Finset.card_bij'
      (fun a ha => ⟨a.1, by simpa using ha⟩)
      (fun b _ => ⟨b.1, lt_of_lt_of_le b.2 h⟩)
      (fun a ha => Finset.mem_univ _)
      (fun b hb => hmem b)
      (fun a ha => rfl)
      (fun b hb => rfl)
  rw [hcard, Finset.card_univ, Fintype.card_fin]

theorem card_filter_comp_perm {n : Nat} (σ : Equiv.Perm (Fin n))
    (p : Fin n → Prop) [DecidablePred p] :
    (Finset.univ.filter (fun i => p (σ i))).card =
      (Finset.univ.filter p).card := by
  apply Finset.card_bij' (fun a _ => σ a) (fun b _ => σ.symm b)
  · intro a ha
    simp only [Finset.mem_filter, Finset.mem_univ, true_and] at ha ⊢
    exact ha
  · intro b hb
    simp only [Finset.mem_filter, Finset.mem_univ, true_and] at hb ⊢
    simpa using hb
  · intro a _
    simp
  · intro b _
    simp

/-- C4: with `N` open tracks and `M` candidate cells before the frame
and the solver output a bijection `σ` on the padded index set
`0..N+M-1`, every assignment pair satisfies exactly one of the
lifecycle manager's branch conditions (continuation, birth, death) or
is sink-to-sink, and the counts satisfy
continuations + deaths = N and continuations + births = M. -/
theorem lap_matching_bijection (N M : Nat) (σ : Equiv.Perm (Fin (N + M))) :
    (∀ track cell : Nat,
      (if isContinuation N M track cell = true then 1 else 0) +
      (if isBirth N M track cell = true then 1 else 0) +
      (if isDeath N M track cell = true then 1 else 0) +
      (if isSinkPair N M track cell = true then 1 else 0) = 1) ∧
    contCount N M σ + deathCount N M σ = N ∧
    contCount N M σ + birthCount N M σ = M := by
  refine ⟨fun track cell => ?_, ?_, ?_⟩
  · simp only [isContinuation, isBirth, isDeath, isSinkPair,
      Bool.and_eq_true, decide_eq_true_eq]
    split_ifs <;> omega
  · have hcont : contCount N M σ =
        (Finset.filter (fun i => (σ i).1 < M)
          (Finset.filter (fun i : Fin (N + M) => i.1 < N) Finset.univ)).card := by
      rw [contCount, Finset.filter_filter]
      congr 1
      apply Finset.filter_congr
      intro i _
      simp [isContinuation]
    have hdeath : deathCount N M σ =
        (Finset.filter (fun i => ¬ ((σ i).1 < M))
          (Finset.filter (fun i : Fin (N + M) => i.1 < N) Finset.univ)).card := by
      rw [deathCount, Finset.filter_filter]
      congr 1
      apply Finset.filter_congr
      intro i _
      simp only [isDeath, Bool.and_eq_true, decide_eq_true_eq]
      constructor
      · intro hx
        exact ⟨hx.1, by omega⟩
      · intro hx
        exact ⟨hx.1, by omega⟩
    rw [hcont, hdeath, Finset.filter_card_add_filter_neg_card_eq_card,
      card_filter_val_lt (N + M) N (Nat.le_add_right N M)]
  · have hcont : contCount N M σ =
        (Finset.filter (fun i => i.1 < N)
          (Finset.filter (fun i : Fin (N + M) => (σ i).1 < M) Finset.univ)).card := by
      rw [contCount, Finset.filter_filter]
      congr 1
      apply Finset.filter_congr
      intro i _
      simp only [isContinuation, Bool.and_eq_true, decide_eq_true_eq]
      exact and_comm
    have hbirth : birthCount N M σ =
        (Finset.filter (fun i => ¬ (i.1 < N))
          (Finset.filter (fun i : Fin (N + M) => (σ i).1 < M) Finset.univ)).card := by
      rw [birthCount, Finset.filter_filter]
      congr 1
      apply Finset.filter_congr
      intro i _
      simp only [isBirth, Bool.and_eq_true, decide_eq_true_eq]
      constructor
      · intro hx
        exact ⟨hx.2, by omega⟩
      · intro hx
        exact ⟨by omega, hx.1⟩
    rw [hcont, hbirth, Finset.filter_card_add_filter_neg_card_eq_card,
      card_filter_comp_perm σ (fun j => j.1 < M),
      card_filter_val_lt (N + M) M (Nat.le_add_left M N)]

/-! ### C10: annotation cleanup -/

theorem unique_sorted_sorted (xs : List Nat) :
    List.Sorted (· ≤ ·) (unique_sorted xs) :=
  List.sorted_insertionSort _ _

theorem unique_sorted_nodup (xs : List Nat) : (unique_sorted xs).Nodup :=
  ((List.perm_insertionSort _ _).nodup_iff).mpr xs.nodup_dedup

theorem mem_unique_sorted {xs : List Nat} {v : Nat} :
    v ∈ unique_sorted xs ↔ v ∈ xs := by
  rw [unique_sorted, (List.perm_insertionSort _ _).mem_iff, List.mem_dedup]

/-- C10: annotation cleanup maps every pixel value to the rank of that
value in the frame's sorted unique-value list (`clean_value`,
applied pixelwise by `clean_up_frame`); consequently, in a frame
containing a background (`0`) pixel, background keeps value `0` and
the cells are renumbered into `1..K` (positive ranks below the number
of distinct values, every rank being hit), while in a frame with no
`0`-valued pixel the smallest label present is remapped to `0` and that
cell becomes background. -/
theorem clean_up_rank_behavior (xs : List Nat) (v : Nat) (hv : v ∈ xs) :
    (0 ∈ xs → ((clean_value xs v = 0 ↔ v = 0) ∧
      (v ≠ 0 → 1 ≤ clean_value xs v ∧
        clean_value xs v < (unique_sorted xs).length))) ∧
    (∀ r, r < (unique_sorted xs).length →
      ∃ w, w ∈ xs ∧ clean_value xs w = r) ∧
    (0 ∉ xs → ((clean_value xs v = 0 ↔ ∀ w ∈ xs, v ≤ w) ∧
      ∃ w, w ∈ xs ∧ w ≠ 0 ∧ clean_value xs w = 0 ∧ ∀ u ∈ xs, w ≤ u)) := by
  have hvl : v ∈ unique_sorted xs := mem_unique_sorted.mpr hv
  have hsorted := unique_sorted_sorted xs
  have hnodup := unique_sorted_nodup xs
  have hsurj : ∀ r, r < (unique_sorted xs).length →
      ∃ w, w ∈ xs ∧ clean_value xs w = r := by
    intro r hr
    refine ⟨(unique_sorted xs).get ⟨r, hr⟩,
      mem_unique_sorted.mp (List.get_mem _ r hr), ?_⟩
    exact List.get_indexOf hnodup ⟨r, hr⟩
  obtain ⟨a, t, hleq⟩ : ∃ a t, unique_sorted xs = a :: t := by
    cases hcase : unique_sorted xs with
    | nil => rw [hcase] at hvl; exact absurd hvl (List.not_mem_nil v)
    | cons a t => exact ⟨a, t, rfl⟩
  rw [hleq] at hsorted hnodup hvl
  have ha : ∀ b ∈ t, a ≤ b := (List.sorted_cons.mp hsorted).1
  have hidx : ∀ u, clean_value xs u =
      (if a = u then 0 else t.indexOf u + 1) := by
    intro u
    simp [clean_value, hleq, List.indexOf_cons, Bool.cond_eq_ite,
      beq_iff_eq]
  have hamin : ∀ w ∈ xs, a ≤ w := by
    intro w hw
    have hwl : w ∈ a :: t := by rw [← hleq]; exact mem_unique_sorted.mpr hw
    rw [List.mem_cons] at hwl
    rcases hwl with rfl | hw2
    · exact le_refl w
    · exact ha _ hw2
  have hauniq : ∀ u, u ∈ xs → (clean_value xs u = 0 ↔ u = a) := by
    intro u _
    rw [hidx u]
    by_cases h : a = u
    · simp [h]
    · simp [h, Ne.symm h]
  have hains : a ∈ xs :=
    mem_unique_sorted.mp (by rw [hleq]; exact List.mem_cons_self a t)
  refine ⟨fun h0 => ?_, hsurj, fun h0 => ?_⟩
  · have ha0 : a = 0 := by
      have h0l : (0 : Nat) ∈ a :: t := by
        rw [← hleq]; exact mem_unique_sorted.mpr h0
      rw [List.mem_cons] at h0l
      rcases h0l with h0a | h0t
      · exact h0a.symm
      · exact Nat.le_zero.mp (ha _ h0t)
    refine ⟨?_, fun hvne => ⟨?_, ?_⟩⟩
    · rw [hauniq v hv, ha0]
    · rw [hidx v, if_neg (by omega : ¬ a = v)]
      omega
    · have hlt := List.indexOf_lt_length.mpr hvl
      simpa [clean_value, hleq] using hlt
  · refine ⟨⟨?_, ?_⟩, ⟨a, hains, ?_, (hauniq a hains).mpr rfl, hamin⟩⟩
    · intro h
      rw [(hauniq v hv).mp h]
      exact hamin
    · intro hmin
      exact (hauniq v hv).mpr (Nat.le_antisymm (hmin a hains) (hamin v hv))
    · intro hcon
      rw [hcon] at hains
      exact h0 hains

/-- C10 witness: in the frame `[0, 5, 3]` (background present) the
pixel value `5` gets a positive rank below the number of distinct
values. -/
theorem clean_up_rank_behavior_witness :
    1 ≤ clean_value [0, 5, 3] 5 ∧
      clean_value [0, 5, 3] 5 < (unique_sorted [0, 5, 3]).length :=
  ((clean_up_rank_behavior [0, 5, 3] 5 (by decide)).1 (by decide)).2
    (by decide)

/-! ### C2: top-left block of the cost matrix -/

/-- C2 counterexample: the top-left block is NOT `1` minus the FIRST
component of the probability triple — at a triple `(3/10, 1/2, 1/5)`
the source yields `1 - 1/2`, not `1 - 3/10`. -/
theorem top_left_spec_counterexample :
    get_cost_matrix 1 1 (9/10) (9/10) (fun _ => false)
        (fun _ _ => (3/10, 1/2, 1/5)) 0 0 ≠
      assignment_matrix_spec (fun _ _ => (3/10, 1/2, 1/5)) 0 0 := by
  norm_num [get_cost_matrix, assignment_matrix, assignment_matrix_spec]

/-- C2 (amended): the top-left `N × M` block equals `1` minus the
SECOND component of each probability triple — the 'unrelated'
probability under the spec's `(continue, unrelated, division)` ordering
— and every row of a capped track is forced to cost `1` in all `M` cell
columns before the matrix is assembled. -/
theorem cost_matrix_top_left (N M : Nat) (d b : ℚ) (capped : Nat → Bool)
    (pred : Nat → Nat → ℚ × ℚ × ℚ) :
    ∀ i j, i < N → j < M →
      get_cost_matrix N M d b capped pred i j =
        (if capped i = true then 1 else 1 - (pred i j).2.1) := by
  intro i j hi hj
  simp [get_cost_matrix, assignment_matrix, hi, hj]

/-- C2 witness: the amended theorem at `N = M = 1`, a capped and an
uncapped configuration. -/
theorem cost_matrix_top_left_witness :
    get_cost_matrix 1 1 (9/10) (9/10) (fun _ => false)
        (fun _ _ => ((3:ℚ)/10, (1:ℚ)/2, (1:ℚ)/5)) 0 0 =
      (if (fun _ : Nat => false) 0 = true then 1
       else 1 - (((3:ℚ)/10, (1:ℚ)/2, (1:ℚ)/5)).2.1) :=
  cost_matrix_top_left 1 1 (9/10) (9/10) (fun _ => false)
    (fun _ _ => ((3:ℚ)/10, (1:ℚ)/2, (1:ℚ)/5)) 0 0 (by decide) (by decide)

/-! ### C3: sink blocks of the cost matrix -/

/-- C3: in the assembled `(N+M) × (N+M)` matrix, the top-right `N × N`
death block carries the death cost on its diagonal and `1` elsewhere,
the bottom-left `M × M` birth block carries the birth cost on its
diagonal and `1` elsewhere, and the bottom-right `M × N` block is the
transpose of the capped-adjusted top-left block. -/
theorem cost_matrix_sink_blocks (N M : Nat) (d b : ℚ) (capped : Nat → Bool)
    (pred : Nat → Nat → ℚ × ℚ × ℚ) :
    (∀ i j, i < N → M ≤ j → j < M + N →
      get_cost_matrix N M d b capped pred i j =
        (if i = j - M then d else 1)) ∧
    (∀ i j, N ≤ i → i < N + M → j < M →
      get_cost_matrix N M d b capped pred i j =
        (if i - N = j then b else 1)) ∧
    (∀ i j, N ≤ i → i < N + M → M ≤ j → j < M + N →
      get_cost_matrix N M d b capped pred i j =
        assignment_matrix capped pred (j - M) (i - N)) := by
  refine ⟨fun i j hi hj1 hj2 => ?_, fun i j hi1 hi2 hj => ?_,
    fun i j hi1 hi2 hj1 hj2 => ?_⟩
  · rw [get_cost_matrix, if_pos hi, if_neg (by omega : ¬ j < M)]
    by_cases h : i = j - M <;> simp [death_matrix, eye, h]
  · rw [get_cost_matrix, if_neg (by omega : ¬ i < N), if_pos hj]
    by_cases h : i - N = j <;> simp [birth_matrix, eye, h]
  · rw [get_cost_matrix, if_neg (by omega : ¬ i < N),
      if_neg (by omega : ¬ j < M)]
    rfl

/-- C3 witness: the block equations at `N = M = 1` with concrete
costs and predictions. -/
theorem cost_matrix_sink_blocks_witness :
    get_cost_matrix 1 1 (9/10) (8/10) (fun _ => false)
        (fun _ _ => ((3:ℚ)/10, (1:ℚ)/2, (1:ℚ)/5)) 0 1 =
      (if 0 = 1 - 1 then (9:ℚ)/10 else 1) :=
  (cost_matrix_sink_blocks 1 1 (9/10) (8/10) (fun _ => false)
    (fun _ _ => ((3:ℚ)/10, (1:ℚ)/2, (1:ℚ)/5))).1 0 1 (by decide) (by decide)
    (by decide)

/-! ### C8: a death assignment changes nothing -/

/-- C8: an assignment classified as a death (`track < N`,
`cell > M - 1`) leaves the whole track collection unchanged — every
track keeps its frames list, feature history, label, parent, daughters
and capped flag. -/
theorem death_leaves_tracks_unchanged {B : Type} (extract : Nat → Nat → B)
    (parentOf : List (Track B) → Nat → Nat → Option Nat)
    (N M frame : Nat) (tracks : List (Track B)) (a : Nat × Nat)
    (h1 : a.1 < N) (h2 : (a.2 : Int) > (M : Int) - 1) :
    processAssignment extract parentOf N M frame tracks a = tracks := by
  have hc1 : ¬ (a.1 < N ∧ a.2 < M) := by omega
  have hc2 : ¬ ((a.1 : Int) > (N : Int) - 1 ∧ a.2 < M) := by omega
  simp only [processAssignment, if_neg hc1, if_neg hc2]

/-- C8 witness: a concrete death assignment (`N = M = 1`, pair
`(0, 1)`) leaves a one-track collection untouched. -/
theorem death_leaves_tracks_unchanged_witness :
    processAssignment (fun _ _ => (0 : Nat)) (fun _ _ _ => none) 1 1 2
      [{ label := 1, frames := [0], hist := [5], daughters := [],
         capped := false, parent := none }] (0, 1) =
    [{ label := 1, frames := [0], hist := [5], daughters := [],
       capped := false, parent := none }] :=
  death_leaves_tracks_unchanged (fun _ _ => (0 : Nat)) (fun _ _ _ => none)
    1 1 2 _ (0, 1) (by decide) (by decide)

/-! ### C1: the per-frame repair pass -/

theorem repairedTrack_capped {B : Type} (frame newId : Nat) (t : Track B) :
    (repairedTrack frame newId t).capped = t.capped := rfl

theorem repairedTrack_frames {B : Type} (frame newId : Nat) (t : Track B) :
    (repairedTrack frame newId t).frames = t.frames.erase frame := rfl

theorem freshTrack_capped {B : Type} (frame i : Nat) (t : Track B) :
    (freshTrack frame i t).capped = false := rfl

theorem freshTrack_frames {B : Type} (frame i : Nat) (t : Track B) :
    (freshTrack frame i t).frames = [frame] := rfl

theorem repairOne_step {B : Type} (frame : Nat) (ts : List (Track B))
    (i : Nat) (t : Track B) (hts : ts[i]? = some t) :
    repairOne frame ts i =
      (if t.daughters.length > 0 ∧ frame ∈ t.frames then
        (ts.set i (repairedTrack frame ts.length t)) ++ [freshTrack frame i t]
      else ts) := by
  unfold repairOne
  rw [hts]

theorem repairFold_invariant {B : Type} (frame : Nat) (ts0 : List (Track B))
    (hinv : ∀ t ∈ ts0, (t.capped = true → t.daughters ≠ []) ∧
      t.frames.count frame ≤ 1) :
    ∀ k, k ≤ ts0.length →
      ts0.length ≤ ((List.range k).foldl (repairOne frame) ts0).length ∧
      (∀ i, k ≤ i → i < ts0.length →
        ((List.range k).foldl (repairOne frame) ts0)[i]? = ts0[i]?) ∧
      (∀ i, i < k → ∀ t,
        ((List.range k).foldl (repairOne frame) ts0)[i]? = some t →
        t.capped = true → frame ∉ t.frames) ∧
      (∀ i, ts0.length ≤ i → ∀ t,
        ((List.range k).foldl (repairOne frame) ts0)[i]? = some t →
        t.capped = false ∧ t.frames = [frame]) := by
  intro k
  induction k with
  | zero =>
    intro _
    refine ⟨?_, ?_, ?_, ?_⟩
    · rw [List.range_zero, List.foldl_nil]
    · intro i _ _
      rw [List.range_zero, List.foldl_nil]
    · intro i hi
      exact absurd hi (Nat.not_lt_zero i)
    · intro i hi t ht
      rw [List.range_zero, List.foldl_nil, List.getElem?_eq_none hi] at ht
      exact absurd ht (by simp)
  | succ k ih =>
    intro hk1
    have hklt : k < ts0.length := hk1
    obtain ⟨ihlen, ihstable, ihdone, ihnew⟩ := ih (Nat.le_of_succ_le hk1)
    have hfold : (List.range (k + 1)).foldl (repairOne frame) ts0 =
        repairOne frame ((List.range k).foldl (repairOne frame) ts0) k := by
      rw [List.range_succ, List.foldl_append, List.foldl_cons, List.foldl_nil]
    set L := (List.range k).foldl (repairOne frame) ts0 with hLdef
    set t0 := ts0.get ⟨k, hklt⟩ with ht0def
    have ht0 : ts0[k]? = some t0 := by
      rw [List.getElem?_eq_getElem hklt, ht0def, List.get_eq_getElem]
    have ht0mem : t0 ∈ ts0 := List.get_mem ts0 k hklt
    obtain ⟨hcap0, hcount0⟩ := hinv t0 ht0mem
    have hLk : L[k]? = some t0 := (ihstable k (le_refl k) hklt).trans ht0
    have hstep := repairOne_step frame L k t0 hLk
    by_cases hc : t0.daughters.length > 0 ∧ frame ∈ t0.frames
    · rw [if_pos hc] at hstep
      have hsetlen : (L.set k (repairedTrack frame L.length t0)).length
          = L.length := List.length_set L k _
      refine ⟨?_, ?_, ?_, ?_⟩
      · rw [hfold, hstep, List.length_append, hsetlen]
        simp only [List.length_singleton]
        omega
      · intro i hi1 hi2
        have hiL : i < (L.set k (repairedTrack frame L.length t0)).length := by
          rw [hsetlen]
          exact lt_of_lt_of_le hi2 ihlen
        rw [hfold, hstep, List.getElem?_append, if_pos hiL,
          List.getElem?_set_ne (by omega : k ≠ i)]
        exact ihstable i (by omega) hi2
      · intro i hi t ht hcap
        rw [hfold, hstep, List.getElem?_append] at ht
        rcases Nat.lt_or_ge i k with hik | hik
        · have hiL : i < (L.set k (repairedTrack frame L.length t0)).length := by
            rw [hsetlen]
            exact lt_of_lt_of_le (lt_trans hik hklt) ihlen
          rw [if_pos hiL, List.getElem?_set_ne (by omega : k ≠ i)] at ht
          exact ihdone i hik t ht hcap
        · have hieq : i = k := by omega
          subst hieq
          have hiLlen : i < L.length := lt_of_lt_of_le hklt ihlen
          have hiL : i < (L.set i (repairedTrack frame L.length t0)).length := by
            rw [hsetlen]
            exact hiLlen
          rw [if_pos hiL, List.getElem?_set_self hiLlen] at ht
          have hteq : t = repairedTrack frame L.length t0 :=
            (Option.some.inj ht).symm
          subst hteq
          rw [repairedTrack_frames]
          intro hmem
          have hpos : 0 < (t0.frames.erase frame).count frame :=
            List.count_pos_iff.mpr hmem
          have herase : (t0.frames.erase frame).count frame
              = t0.frames.count frame - 1 :=
            List.count_erase_self frame t0.frames
          omega
      · intro i hi t ht
        rw [hfold, hstep, List.getElem?_append] at ht
        by_cases hiL : i < (L.set k (repairedTrack frame L.length t0)).length
        · rw [if_pos hiL, List.getElem?_set_ne (by omega : k ≠ i)] at ht
          exact ihnew i hi t ht
        · rw [if_neg hiL, hsetlen] at ht
          rw [hsetlen] at hiL
          rcases Nat.lt_or_ge (i - L.length) 1 with h1 | h1
          · have h0 : i - L.length = 0 := by omega
            rw [h0] at ht
            have hteq : t = freshTrack frame k t0 := by
              simpa using ht.symm
            subst hteq
            exact ⟨freshTrack_capped frame k t0, freshTrack_frames frame k t0⟩
          · rw [List.getElem?_eq_none (by simpa using h1)] at ht
            exact absurd ht (by simp)
    · rw [if_neg hc] at hstep
      have hL2 : (List.range (k + 1)).foldl (repairOne frame) ts0 = L := by
        rw [hfold, hstep]
      rw [hL2]
      refine ⟨ihlen, fun i hi1 hi2 => ihstable i (by omega) hi2, ?_, ihnew⟩
      intro i hi t ht hcap
      rcases Nat.lt_or_ge i k with hik | hik
      · exact ihdone i hik t ht hcap
      · have hieq : i = k := by omega
        subst hieq
        rw [hLk] at ht
        have hteq : t = t0 := (Option.some.inj ht).symm
        subst hteq
        intro hmem
        have hd : t0.daughters.length > 0 :=
          List.length_pos.mpr (hcap0 hcap)
        exact hc ⟨hd, hmem⟩

/-- C1: after the capping-and-repair pass of `_update_tracks`, no
capped track still holds the current frame: under the state invariants
that a capped track has at least one daughter and that no track records
the same frame twice, every capped track of the repaired state does not
hold the frame; every track appended by the repair is uncapped and
carries exactly the current frame; and the repair step on an offending
track (has a daughter and holds the frame) removes the frame and the
last feature-history entry from it and appends the fresh track —
re-homed from that last history entry — as an additional daughter. -/
theorem capped_track_repair {B : Type} (frame : Nat)
    (tracks : List (Track B))
    (hcd : ∀ t ∈ tracks, t.capped = true → t.daughters ≠ [])
    (hcount : ∀ t ∈ tracks, t.frames.count frame ≤ 1) :
    (∀ t ∈ repairPass frame tracks, t.capped = true → frame ∉ t.frames) ∧
    (∀ i t, tracks.length ≤ i → (repairPass frame tracks)[i]? = some t →
      t.capped = false ∧ t.frames = [frame]) ∧
    (∀ (ts : List (Track B)) (i : Nat) (t : Track B), ts[i]? = some t →
      t.daughters.length > 0 → frame ∈ t.frames →
      repairOne frame ts i =
        (ts.set i (repairedTrack frame ts.length t)) ++
          [freshTrack frame i t]) := by
  have hlen0 : (capAll tracks).length = tracks.length := by
    rw [capAll, List.length_map]
  have hinv : ∀ t2 ∈ capAll tracks,
      (t2.capped = true → t2.daughters ≠ []) ∧
        t2.frames.count frame ≤ 1 := by
    intro t2 ht2
    rw [capAll, List.mem_map] at ht2
    obtain ⟨t, ht, rfl⟩ := ht2
    by_cases hd : t.daughters.length > 0
    · rw [if_pos hd]
      refine ⟨fun _ => ?_, ?_⟩
      · show t.daughters ≠ []
        intro hnil
        rw [hnil] at hd
        exact absurd hd (by simp)
      · show t.frames.count frame ≤ 1
        exact hcount t ht
    · rw [if_neg hd]
      exact ⟨hcd t ht, hcount t ht⟩
  have hrp : repairPass frame tracks =
      (List.range (capAll tracks).length).foldl (repairOne frame)
        (capAll tracks) := by
    simp only [repairPass]
  have hmain := repairFold_invariant frame (capAll tracks) hinv
    (capAll tracks).length (le_refl _)
  refine ⟨?_, ?_, ?_⟩
  · intro t htmem hcap
    rw [hrp] at htmem
    obtain ⟨n, hn⟩ := List.mem_iff_getElem?.mp htmem
    rcases Nat.lt_or_ge n (capAll tracks).length with h | h
    · exact hmain.2.2.1 n h t hn hcap
    · have hnew := hmain.2.2.2 n h t hn
      rw [hnew.1] at hcap
      exact absurd hcap (by simp)
  · intro i t hi ht
    rw [hrp] at ht
    exact hmain.2.2.2 i (by rw [hlen0]; exact hi) t ht
  · intro ts i t hts hd hf
    rw [repairOne_step frame ts i t hts, if_pos ⟨hd, hf⟩]

/-- C1 witness: a capped one-track state continued in frame `1` no
longer holds frame `1` after the repair pass. -/
theorem capped_track_repair_witness :
    (1 : Nat) ∉ ((repairPass 1 [repair_demo_track]).headI).frames :=
  (capped_track_repair 1 [repair_demo_track] (by decide) (by decide)).1
    ((repairPass 1 [repair_demo_track]).headI) (by decide) (by decide)

/-! ### C5: parent resolution -/

theorem le_foldl_max (l : List ℚ) (a : ℚ) : a ≤ l.foldl max a := by
  induction l generalizing a with
  | nil => exact le_refl a
  | cons b t ih =>
    rw [List.foldl_cons]
    exact le_trans (le_max_left a b) (ih (max a b))

theorem mem_le_foldl_max (l : List ℚ) : ∀ (a x : ℚ), x ∈ l →
    x ≤ l.foldl max a := by
  induction l with
  | nil =>
    intro a x hx
    exact absurd hx (List.not_mem_nil x)
  | cons b t ih =>
    intro a x hx
    rw [List.foldl_cons]
    rw [List.mem_cons] at hx
    rcases hx with rfl | hx
    · exact le_trans (le_max_right a x) (le_foldl_max t (max a x))
    · exact ih (max a b) x hx

theorem foldl_max_mem (l : List ℚ) : ∀ a : ℚ,
    l.foldl max a = a ∨ l.foldl max a ∈ l := by
  induction l with
  | nil =>
    intro a
    exact Or.inl rfl
  | cons b t ih =>
    intro a
    rw [List.foldl_cons]
    rcases ih (max a b) with h | h
    · rcases max_choice a b with h2 | h2
      · exact Or.inl (h.trans h2)
      · refine Or.inr ?_
        rw [h, h2]
        exact List.mem_cons_self b t
    · exact Or.inr (List.mem_cons_of_mem b h)

theorem amax_mem (l : List ℚ) (h : l ≠ []) : amax l ∈ l := by
  rcases foldl_max_mem l l.headI with h2 | h2
  · rw [amax, h2]
    exact headI_mem_of_ne_nil h
  · exact h2

theorem amax_ge (l : List ℚ) (x : ℚ) (hx : x ∈ l) : x ≤ amax l :=
  mem_le_foldl_max l l.headI x hx

theorem indexOf_first (l : List ℚ) (a : ℚ) :
    ∀ j, j < l.indexOf a → ∀ hj : j < l.length, l.get ⟨j, hj⟩ ≠ a := by
  induction l with
  | nil =>
    intro j _ hj2
    exact absurd hj2 (by simp)
  | cons b t ih =>
    intro j hj1 hj2
    rw [List.indexOf_cons] at hj1
    cases hba : (b == a) with
    | true =>
      rw [hba, Bool.cond_true] at hj1
      exact absurd hj1 (Nat.not_lt_zero j)
    | false =>
      rw [hba, Bool.cond_false] at hj1
      cases j with
      | zero =>
        show b ≠ a
        exact beq_eq_false_iff_ne.mp hba
      | succ j2 =>
        rw [List.get_cons_succ]
        exact ih j2 (by omega) (by simpa using hj2)

theorem zero_capped_getElem? (capped : List Bool) (probs : List ℚ) (t : Nat)
    (h : t < capped.length) :
    (zero_capped capped probs)[t]? =
      some (if capped.getD t false = true then 0 else probs.getD t 0) := by
  rw [zero_capped, List.getElem?_map, List.getElem?_range h]
  rfl

/-- C5 counterexample: capped tracks are NOT excluded from winning by
the source — their scores are merely zeroed, so with a single capped
track and a negative division threshold `_get_parent` links the capped
track as parent while the spec's resolution yields no parent. -/
theorem parent_capped_counterexample :
    get_parent (-1) [true] [9/10] = some 0 ∧
      spec_get_parent (-1) [true] [9/10] = none := by
  constructor
  · norm_num [get_parent, zero_capped, amax, List.range_succ]
  · norm_num [spec_get_parent, is_best, is_candidate, List.range_succ,
      List.find?]

/-- C5 (amended): provided there is at least one track and the
configured division threshold is nonnegative, `_get_parent` resolves
parentage exactly as the spec words it: the candidate parent is the non-capped
track of maximal division score with ties broken by the lowest track
id, the parent link is created iff that maximal score strictly exceeds
the threshold, and capped tracks never win. -/
theorem get_parent_eq_spec (division : ℚ) (capped : List Bool)
    (probs : List ℚ) (hlen : capped.length = probs.length)
    (hne : probs ≠ []) (hdiv : 0 ≤ division) :
    get_parent division capped probs = spec_get_parent division capped probs := by
  have hn : 0 < capped.length := by
    rw [hlen]
    exact List.length_pos.mpr hne
  have hP2len : (zero_capped capped probs).length = capped.length := by
    rw [zero_capped, List.length_map, List.length_range]
  have hP2ne : zero_capped capped probs ≠ [] := by
    rw [← List.length_pos, hP2len]
    exact hn
  have hgdd : ∀ t, t < capped.length →
      capped.getD t true = capped.getD t false := by
    intro t ht
    rw [List.getD_eq_getElem capped true ht, List.getD_eq_getElem capped false ht]
  have hub : ∀ s, s < capped.length → capped.getD s false = false →
      probs.getD s 0 ≤ amax (zero_capped capped probs) := by
    intro s hs hcs
    have hmem : probs.getD s 0 ∈ zero_capped capped probs := by
      apply List.mem_iff_getElem?.mpr
      refine ⟨s, ?_⟩
      rw [zero_capped_getElem? capped probs s hs, hcs]
      simp
    exact amax_ge _ _ hmem
  have hunfold : get_parent division capped probs =
      (if amax (zero_capped capped probs) > division then
        some ((zero_capped capped probs).indexOf
          (amax (zero_capped capped probs)))
      else none) := rfl
  by_cases hm : amax (zero_capped capped probs) > division
  · have hm0 : 0 < amax (zero_capped capped probs) := lt_of_le_of_lt hdiv hm
    have hmmem : amax (zero_capped capped probs) ∈ zero_capped capped probs :=
      amax_mem _ hP2ne
    have hti_lt : (zero_capped capped probs).indexOf
        (amax (zero_capped capped probs)) < (zero_capped capped probs).length :=
      List.indexOf_lt_length.mpr hmmem
    set ti := (zero_capped capped probs).indexOf
      (amax (zero_capped capped probs)) with hti_def
    have hti_ltc : ti < capped.length := by
      rw [← hP2len]
      exact hti_lt
    have hti_get : (zero_capped capped probs).get ⟨ti, hti_lt⟩ =
        amax (zero_capped capped probs) := List.indexOf_get hti_lt
    rw [List.get_eq_getElem] at hti_get
    have hti_some : (zero_capped capped probs)[ti]? =
        some (amax (zero_capped capped probs)) := by
      rw [List.getElem?_eq_getElem hti_lt, hti_get]
    have hKey : capped.getD ti false = false ∧
        probs.getD ti 0 = amax (zero_capped capped probs) := by
      have h2 := zero_capped_getElem? capped probs ti hti_ltc
      have h3 := Option.some.inj (hti_some.symm.trans h2)
      by_cases hcap : capped.getD ti false = true
      · rw [if_pos hcap] at h3
        exact absurd h3 (ne_of_gt hm0)
      · rw [if_neg hcap] at h3
        exact ⟨by simpa using hcap, h3.symm⟩
    have hfirst : ∀ s, s < ti → s < capped.length →
        capped.getD s false = false →
        probs.getD s 0 ≠ amax (zero_capped capped probs) := by
      intro s hs hsc hcs heq
      have hslt : s < (zero_capped capped probs).length := by
        rw [hP2len]
        exact hsc
      apply indexOf_first (zero_capped capped probs)
        (amax (zero_capped capped probs)) s hs hslt
      rw [List.get_eq_getElem]
      have h2 := zero_capped_getElem? capped probs s hsc
      rw [List.getElem?_eq_getElem hslt] at h2
      have h3 := Option.some.inj h2
      rw [h3, hcs]
      simpa using heq
    have hcand_ti : is_candidate capped ti = true := by
      rw [is_candidate, hgdd ti hti_ltc, hKey.1]
      rfl
    have hbest_ti : is_best capped probs ti = true := by
      rw [is_best, Bool.and_eq_true]
      refine ⟨hcand_ti, List.all_eq_true.mpr ?_⟩
      intro s hsmem
      have hsc : s < capped.length := List.mem_range.mp hsmem
      by_cases hcs : is_candidate capped s = true
      · have hcsf : capped.getD s false = false := by
          rw [is_candidate] at hcs
          rw [← hgdd s hsc]
          simpa using hcs
        rw [Bool.or_eq_true]
        right
        rw [decide_eq_true_eq, hKey.2]
        exact hub s hsc hcsf
      · rw [Bool.or_eq_true]
        left
        simpa using hcs
    have hnotbest : ∀ x, x < ti → is_best capped probs x = false := by
      intro x hx
      by_contra hxb
      have hxb2 : is_best capped probs x = true := by
        cases hxx : is_best capped probs x
        · exact absurd hxx hxb
        · rfl
      have hxc : x < capped.length := lt_trans hx hti_ltc
      rw [is_best, Bool.and_eq_true] at hxb2
      obtain ⟨hxcand, hxall⟩ := hxb2
      have hxcf : capped.getD x false = false := by
        rw [is_candidate] at hxcand
        rw [← hgdd x hxc]
        simpa using hxcand
      have hall := List.all_eq_true.mp hxall ti (List.mem_range.mpr hti_ltc)
      rw [Bool.or_eq_true] at hall
      rcases hall with h | h
      · rw [hcand_ti] at h
        simp at h
      · rw [decide_eq_true_eq, hKey.2] at h
        have hle := hub x hxc hxcf
        exact hfirst x hx hxc hxcf (le_antisymm hle h)
    have hfind : (List.range capped.length).find? (is_best capped probs) =
        some ti := by
      have hsplit : List.range capped.length = List.range ti ++
          (List.range (capped.length - ti)).map (fun x => ti + x) := by
        rw [← List.range_add]
        congr 1
        omega
      have hpos2 : capped.length - ti = (capped.length - ti - 1) + 1 := by
        omega
      rw [hsplit, List.find?_append]
      have hnone : (List.range ti).find? (is_best capped probs) = none := by
        rw [List.find?_eq_none]
        intro x hxmem
        rw [hnotbest x (List.mem_range.mp hxmem)]
        simp
      rw [hnone, Option.none_or, hpos2, List.range_succ_eq_map, List.map_cons]
      simp only [Nat.add_zero]
      exact List.find?_cons_of_pos _ hbest_ti
    have hspec : spec_get_parent division capped probs =
        (if probs.getD ti 0 > division then some ti else none) := by
      unfold spec_get_parent
      rw [hfind]
    rw [hunfold, hspec, hKey.2, if_pos hm]
  · rw [hunfold, if_neg hm]
    cases hA : (List.range capped.length).find? (is_best capped probs) with
    | none =>
      have hspec : spec_get_parent division capped probs = none := by
        unfold spec_get_parent
        rw [hA]
      rw [hspec]
    | some b =>
      have hb_best := List.find?_some hA
      have hb_mem := List.mem_of_find?_eq_some hA
      have hbc : b < capped.length := List.mem_range.mp hb_mem
      rw [is_best, Bool.and_eq_true] at hb_best
      have hbcf : capped.getD b false = false := by
        rw [is_candidate] at hb_best
        rw [← hgdd b hbc]
        simpa using hb_best.1
      have hble := hub b hbc hbcf
      have hnotgt : ¬ (probs.getD b 0 > division) := by
        rw [not_lt] at hm ⊢
        exact le_trans hble hm
      have hspec : spec_get_parent division capped probs =
          (if probs.getD b 0 > division then some b else none) := by
        unfold spec_get_parent
        rw [hA]
      rw [hspec, if_neg hnotgt]

/-- C5 witness: with two uncapped tracks, nonnegative scores and a
nonnegative threshold, source and spec resolution agree. -/
theorem get_parent_eq_spec_witness :
    get_parent (1/5) [false, false] [1/2, 1/4] =
      spec_get_parent (1/5) [false, false] [1/2, 1/4] :=
  get_parent_eq_spec (1/5) [false, false] [1/2, 1/4] (by decide)
    (by decide) (by norm_num)
